import Mathlib

/-!
Verification of the request-matching layer of the `mux` HTTP routing
library (file `matcher.go`).  Go strings are modelled as `List Char`
(the source only manipulates ASCII); the Go `regexp` library is
modelled by an executable regular-expression engine over a syntax
subset sufficient for the patterns this code builds (literals, groups,
character classes, counted repetition, and the `*`, `+`, `?` postfix
operators).  Patterns outside the modelled subset fail to compile
(`none`), mirroring the fact that they are not modelled rather than
any particular Go behaviour.
-/

/-- Convert a Lean string literal to the `List Char` model of Go strings. -/
def str (s : String) : List Char := s.data

/- ### Regular-expression engine (model of the `regexp` package) -/

/-- Abstract syntax of the modelled regular-expression subset.
`cls rs` is a character class given by inclusive ranges. -/
inductive Regex where
  | emp : Regex
  | eps : Regex
  | chr : Char → Regex
  | cls : List (Char × Char) → Regex
  | cat : Regex → Regex → Regex
  | alt : Regex → Regex → Regex
  | star : Regex → Regex
deriving DecidableEq, Repr

/-- Does the regular expression accept the empty string? -/
def Regex.nullable : Regex → Bool
  | .emp => false
  | .eps => true
  | .chr _ => false
  | .cls _ => false
  | .cat r1 r2 => r1.nullable && r2.nullable
  | .alt r1 r2 => r1.nullable || r2.nullable
  | .star _ => true

/-- Brzozowski derivative of a regular expression by a character. -/
def Regex.deriv : Regex → Char → Regex
  | .emp, _ => .emp
  | .eps, _ => .emp
  | .chr c, a => if a = c then .eps else .emp
  | .cls rs, a => if rs.any (fun p => decide (p.1 ≤ a) && decide (a ≤ p.2)) then .eps else .emp
  | .cat r1 r2, a =>
      if r1.nullable then .alt (.cat (r1.deriv a) r2) (r2.deriv a)
      else .cat (r1.deriv a) r2
  | .alt r1 r2, a => .alt (r1.deriv a) (r2.deriv a)
  | .star r, a => .cat (r.deriv a) (.star r)

/-- Whole-string acceptance via iterated derivatives. -/
def matchFull (r : Regex) (s : List Char) : Bool :=
  (s.foldl Regex.deriv r).nullable

/-- `r` concatenated with itself `n` times. -/
def repN (a : Regex) : Nat → Regex
  | 0 => .eps
  | n + 1 => .cat a (repN a n)

/-- Characters with a special meaning in the modelled pattern syntax;
any other character is a literal. -/
def metaChars : List Char :=
  ['(', ')', '[', ']', '\x7b', '\x7d', '*', '+', '?', '|', '^', '$', '.', '\\']

/-- A character that the modelled pattern syntax treats as a literal. -/
def isPlainChar (c : Char) : Bool := decide (c ∉ metaChars)

/-- Read a run of decimal digits, accumulating their value. -/
def parseNatAux : List Char → Nat → Nat × List Char
  | [], acc => (acc, [])
  | c :: rest, acc =>
      if c.isDigit then parseNatAux rest (10 * acc + (c.toNat - 48))
      else (acc, c :: rest)

/-- Read a nonempty run of decimal digits. -/
def parseNat (s : List Char) : Option (Nat × List Char) :=
  match s with
  | [] => none
  | c :: _ => if c.isDigit then some (parseNatAux s 0) else none

/-- Parse the inside of a counted repetition after the opening brace:
`m`, `m,` or `m,n` followed by the closing brace. -/
def parseRep (a : Regex) (s : List Char) : Option (Regex × List Char) :=
  match parseNat s with
  | none => none
  | some (m, s1) =>
    match s1 with
    | '\x7d' :: rest => some (repN a m, rest)
    | ',' :: '\x7d' :: rest => some (.cat (repN a m) (.star a), rest)
    | ',' :: s2 =>
      match parseNat s2 with
      | none => none
      | some (n, s3) =>
        match s3 with
        | '\x7d' :: rest =>
            if m ≤ n then some (.cat (repN a m) (repN (.alt .eps a) (n - m)), rest)
            else none
        | _ => none
    | _ => none

/-- Parse the items of a character class up to the closing bracket.
`fuel` bounds the recursion (one item is consumed per step). -/
def parseClassItems : Nat → List Char → Option (List (Char × Char) × List Char)
  | 0, _ => none
  | _ + 1, [] => none
  | fuel + 1, c :: rest =>
    if c = ']' then some ([], rest)
    else if c = '\\' || c = '^' then none
    else
      match rest with
      | d :: e :: rest2 =>
        if d = '-' && e ≠ ']' then
          match parseClassItems fuel rest2 with
          | some (items, r) => some ((c, e) :: items, r)
          | none => none
        else
          match parseClassItems fuel rest with
          | some (items, r) => some ((c, c) :: items, r)
          | none => none
      | _ =>
        match parseClassItems fuel rest with
        | some (items, r) => some ((c, c) :: items, r)
        | none => none

/-- Parse a character class body into a `Regex.cls` atom. -/
def parseClass (s : List Char) : Option (Regex × List Char) :=
  match parseClassItems (s.length + 1) s with
  | some (items, r) => some (.cls items, r)
  | none => none

/-- Apply an optional postfix repetition operator to a parsed atom. -/
def parseRepOp (a : Regex) (s : List Char) : Option (Regex × List Char) :=
  match s with
  | [] => some (a, [])
  | c :: rest =>
    if c = '*' then some (.star a, rest)
    else if c = '+' then some (.cat a (.star a), rest)
    else if c = '?' then some (.alt .eps a, rest)
    else if c = '\x7b' then parseRep a rest
    else some (a, c :: rest)

/-- Parse a sequence of atoms (with postfix operators) up to a closing
parenthesis or the end of input.  `fuel` bounds the recursion. -/
def parseSeq : Nat → List Char → Option (Regex × List Char)
  | 0, _ => none
  | fuel + 1, s =>
    match s with
    | [] => some (.eps, [])
    | c :: rest =>
      if c = ')' then some (.eps, c :: rest)
      else
        let atomRes : Option (Regex × List Char) :=
          if c = '(' then
            match parseSeq fuel rest with
            | some (r, c1 :: s2) => if c1 = ')' then some (r, s2) else none
            | _ => none
          else if c = '[' then parseClass rest
          else if isPlainChar c then some (.chr c, rest)
          else none
        match atomRes with
        | none => none
        | some (a, s1) =>
          match parseRepOp a s1 with
          | none => none
          | some (a2, s2) =>
            match parseSeq fuel s2 with
            | some (r, s3) => some (.cat a2 r, s3)
            | none => none

/-- A compiled pattern: the start/end anchoring flags together with the
parsed body.  Models a compiled `regexp.Regexp` value. -/
structure GoRegex where
  hasStart : Bool
  hasEnd : Bool
  r : Regex
deriving DecidableEq, Repr

/-- Split a leading start-of-string anchor off a pattern. -/
def stripStart (s : List Char) : Bool × List Char :=
  match s with
  | [] => (false, [])
  | c :: rest => if c = '^' then (true, rest) else (false, c :: rest)

/-- Split a trailing end-of-string anchor off a pattern. -/
def stripEnd (s : List Char) : Bool × List Char :=
  if s.getLast? = some '$' then (true, s.dropLast) else (false, s)

/-- Split a pattern at every alternation bar.  `|` has the lowest
precedence in the Go syntax, so a pattern is an alternation of the
bar-separated branches; a bar that is not a top-level alternation
(inside a group or a character class) leaves fragments with unbalanced
delimiters that the branch parser rejects, so no such pattern is
mis-modelled. -/
def splitBarsAux : List Char → List Char → List (List Char)
  | acc, [] => [acc.reverse]
  | acc, c :: rest =>
      if c = '|' then acc.reverse :: splitBarsAux [] rest
      else splitBarsAux (c :: acc) rest

/-- The bar-separated branches of a pattern. -/
def splitBars (s : List Char) : List (List Char) := splitBarsAux [] s

/-- Compile one alternation branch: strip the branch's outer anchors,
reject interior anchors (unmodelled), and parse the body.  `none` both
for branches the Go library would reject and for branches outside the
modelled subset. -/
def compileBranch (b : List Char) : Option GoRegex :=
  match stripStart b with
  | (hs, p1) =>
    match stripEnd p1 with
    | (he, p2) =>
      if p2.any (fun c => c = '^' || c = '$') then none
      else
        match parseSeq (p2.length + 1) p2 with
        | some (r, []) => some ⟨hs, he, r⟩
        | _ => none

/-- Compile every branch, failing if any branch fails. -/
def compileBranches : List (List Char) → Option (List GoRegex)
  | [] => some []
  | b :: rest =>
    match compileBranch b, compileBranches rest with
    | some g, some gs => some (g :: gs)
    | _, _ => none

/-- Model of `regexp.Compile`: a compiled pattern is the list of its
compiled top-level alternation branches.  Note the anchors a caller
wraps around the whole pattern attach only to the first and last
branch, exactly as in the Go syntax. -/
def goCompile (pat : List Char) : Option (List GoRegex) :=
  compileBranches (splitBars pat)

/-- Model of `regexp.MatchString`: an unanchored search for the body,
restricted by whatever anchors the pattern carries. -/
def matchString (g : GoRegex) (s : List Char) : Bool :=
  match g.hasStart, g.hasEnd with
  | true, true => matchFull g.r s
  | true, false => (List.range (s.length + 1)).any (fun n => matchFull g.r (s.take n))
  | false, true => (List.range (s.length + 1)).any (fun n => matchFull g.r (s.drop n))
  | false, false =>
      (List.range (s.length + 1)).any (fun i =>
        (List.range (s.length + 1 - i)).any (fun len => matchFull g.r ((s.drop i).take len)))

/-- Model of `regexp.MatchString` for a full compiled pattern: some
alternation branch matches (under its own anchors). -/
def goMatchString (gs : List GoRegex) (s : List Char) : Bool :=
  gs.any (fun g => matchString g s)

/- ### The path-template scanner (`newPathWithVarsMatcher`) -/

/-- The scan state of the template compiler (`type variable` in the
source): the recorded start and end indices of a placeholder. -/
structure GoVariable where
  firstIndex : Nat
  lastIndex : Nat
deriving DecidableEq, Repr

/-- Go slice `p[a:b]`. -/
def subSlice (p : List Char) (a b : Nat) : List Char := (p.drop a).take (b - a)

/-- One iteration of the loop body of `newPathWithVarsMatcher`, at loop
index `i` (only invoked with `i < p.length`, as in the source). -/
def scanStep (p : List Char) (v : GoVariable) (i : Nat) : List Char × GoVariable :=
  let c := p.getD i (Char.ofNat 0)
  if c = ':' then (p, ⟨i, v.lastIndex⟩)
  else if v.firstIndex ≠ 0 ∧ (c = '/' ∨ i = p.length - 1) then
    let last := if i = p.length - 1 then i + 1 else i
    let seg := subSlice p v.firstIndex last
    if seg = str ":number" then
      (p.take v.firstIndex ++ str "([0-9]\x7b1,\x7d)" ++ p.drop last, ⟨0, 0⟩)
    else if seg = str ":string" then
      (p.take v.firstIndex ++ str "([a-zA-Z]\x7b1,\x7d)" ++ p.drop last, ⟨0, 0⟩)
    else (p, ⟨v.firstIndex, last⟩)
  else (p, v)

/-- The scan loop: iterate `scanStep` while `i` is below the current
(length-changing) template length. -/
def scanAux : Nat → List Char × GoVariable → Nat → List Char × GoVariable
  | 0, st, _ => st
  | fuel + 1, (p, v), i =>
    if i < p.length then scanAux fuel (scanStep p v i) (i + 1) else (p, v)

/-- The full scan of `newPathWithVarsMatcher`, from index 0 with unset
state.  The fuel bounds the iteration count: each substitution removes
a colon and adds at most seven characters, so the template never grows
beyond eight times its original length. -/
def scanGo (path : List Char) : List Char × GoVariable :=
  scanAux (8 * path.length + 1) (path, ⟨0, 0⟩) 0

/-- `newPathWithVarsMatcher`: scan the template, then compile the result
wrapped in start and end anchors. -/
def newPathWithVarsMatcher (path : List Char) : Option (List GoRegex) :=
  goCompile ('^' :: (scanGo path).1 ++ ['$'])

/-- Model of `strings.Replace(path, "#", "", -1)`. -/
def removeHash : List Char → List Char
  | [] => []
  | c :: cs => if c = '#' then removeHash cs else c :: removeHash cs

/-- `newPathRegexMatcher`: strip the cosmetic hash marks, then compile
the pattern wrapped in start and end anchors. -/
def newPathRegexMatcher (path : List Char) : Option (List GoRegex) :=
  goCompile ('^' :: removeHash path ++ ['$'])

/-- Template-matcher pipeline: build the matcher from `tpl` and run its
`Match` on request path `p` (`none` when compilation fails). -/
def pwvMatch (tpl p : List Char) : Option Bool :=
  (newPathWithVarsMatcher tpl).map (fun gs => goMatchString gs p)

/-- Regex-matcher pipeline: build the matcher from `pat` and run its
`Match` on request path `p` (`none` when compilation fails). -/
def prMatch (pat p : List Char) : Option Bool :=
  (newPathRegexMatcher pat).map (fun gs => goMatchString gs p)

/- ### Requests and the matcher variants -/

/-- The fields of `*http.Request` that the matchers read: URL scheme,
URL path, and the header collection (name, values). -/
structure Request where
  scheme : List Char
  path : List Char
  headers : List (List Char × List (List Char))
deriving DecidableEq

/-- Model of `strings.ToLower` (the source only handles ASCII). -/
def lowerChars (s : List Char) : List Char := s.map Char.toLower

/-- Modelled from the spec: the comparison abstraction built by the
external mapping builders (`convertStringsToMapString` /
`convertStringsToMapRegex`, not part of this file's source) — a value
that is either an exact string or a compiled pattern. -/
inductive Comparison where
  | exactStr : List Char → Comparison
  | regexCmp : List GoRegex → Comparison

/-- Modelled from the spec: evaluating a comparison against a candidate
string — exact equality for the string variant, pattern match for the
compiled-pattern variant. -/
def evalComparison : Comparison → List Char → Bool
  | .exactStr s, v => decide (s = v)
  | .regexCmp gs, v => goMatchString gs v

/-- Modelled from the spec: case-insensitive header-name lookup
returning all values stored under the name. -/
def headerValues (hdrs : List (List Char × List (List Char))) (name : List Char) :
    List (List Char) :=
  ((hdrs.filter (fun h => decide (lowerChars h.1 = lowerChars name))).map (fun h => h.2)).flatten

/-- Modelled from the spec: the external map-comparison routine
`matchMap` — with `requireAll` true, every mapped name must have at
least one actual header value satisfying its comparison. -/
def matchMap (m : List (List Char × Comparison))
    (hdrs : List (List Char × List (List Char))) (requireAll : Bool) : Bool :=
  if requireAll then
    m.all (fun nc => (headerValues hdrs nc.1).any (evalComparison nc.2))
  else
    m.any (fun nc => (headerValues hdrs nc.1).any (evalComparison nc.2))

/-- The matcher rank constants (`rankAny`, `rankPath`, `rankScheme`). -/
def rankAny : Nat := 0

/-- Rank of the path matcher variants. -/
def rankPath : Nat := 1

/-- Rank of the scheme matcher. -/
def rankScheme : Nat := 2

/-- The closed family of matcher variants implementing the `Matcher`
interface, each carrying its construction-time state.  The custom
`MatcherFunc` wraps a Go `func(*http.Request) bool`: the wrapped
function receives the request by pointer, so it is modelled as
returning, besides its boolean, the request as it leaves it. -/
inductive GoMatcher where
  | header : List (List Char × Comparison) → GoMatcher
  | headerRegex : List (List Char × Comparison) → GoMatcher
  | mFunc : (Request → Bool × Request) → GoMatcher
  | scheme : List (List Char) → GoMatcher
  | path : List Char → GoMatcher
  | pathWithVars : List GoRegex → GoMatcher
  | pathRegex : List GoRegex → GoMatcher

/-- `Rank()` of each matcher variant. -/
def GoMatcher.rank : GoMatcher → Nat
  | .header _ => rankAny
  | .headerRegex _ => rankAny
  | .mFunc _ => rankAny
  | .scheme _ => rankScheme
  | .path _ => rankPath
  | .pathWithVars _ => rankPath
  | .pathRegex _ => rankPath

/-- `Match(r)` of each matcher variant: header matchers delegate to the
map-comparison routine with `requireAll = true`; the scheme matcher is
a set-membership test of the request scheme taken verbatim; the literal
path matcher is string equality (`strings.Compare == 0`); the two
regex-based path matchers evaluate their compiled pattern. -/
def GoMatcher.matchReq : GoMatcher → Request → Bool
  | .header hm, r => matchMap hm r.headers true
  | .headerRegex hm, r => matchMap hm r.headers true
  | .mFunc f, r => (f r).1
  | .scheme s, r => decide (r.scheme ∈ s)
  | .path p, r => decide (p = r.path)
  | .pathWithVars gs, r => goMatchString gs r.path
  | .pathRegex gs, r => goMatchString gs r.path

/-- State-passing translation of each `Match` body: alongside the
boolean result it returns the matcher state and the request as they
stand after the call.  Every `Match` body written in the source is a
single `return` of a read-only expression, so those variants return
both unchanged; the custom variant calls the wrapped function with the
request pointer, so the request comes back as that function leaves it. -/
def GoMatcher.matchReqSt (m : GoMatcher) (r : Request) : Bool × GoMatcher × Request :=
  match m with
  | .header hm => (matchMap hm r.headers true, .header hm, r)
  | .headerRegex hm => (matchMap hm r.headers true, .headerRegex hm, r)
  | .mFunc f => ((f r).1, .mFunc f, (f r).2)
  | .scheme s => (decide (r.scheme ∈ s), .scheme s, r)
  | .path p => (decide (p = r.path), .path p, r)
  | .pathWithVars gs => (goMatchString gs r.path, .pathWithVars gs, r)
  | .pathRegex gs => (goMatchString gs r.path, .pathRegex gs, r)

/-- `newSchemeMatcher`: lower-case every supplied scheme and store the
results as the matcher's set. -/
def newSchemeMatcher (schemes : List (List Char)) : GoMatcher :=
  .scheme (schemes.map lowerChars)

/-- `Matchers.Less(i, j)`: rank of element `i` is less than rank of
element `j`. -/
def matchersLess (ms : List GoMatcher) (i j : Fin ms.length) : Bool :=
  decide ((ms.get i).rank < (ms.get j).rank)

/-- Insert a matcher into a rank-sorted list (ascending). -/
def insertByRank (x : GoMatcher) : List GoMatcher → List GoMatcher
  | [] => [x]
  | y :: ys => if x.rank < y.rank then x :: y :: ys else y :: insertByRank x ys

/-- An ascending sort by rank, a correct consumer of the
length/swap/less contract that `Matchers` exposes to `sort.Sort`. -/
def sortByRank (l : List GoMatcher) : List GoMatcher := l.foldr insertByRank []

/-- The regular expression denoting exactly one literal string: the
concatenation of its characters. -/
def litRe : List Char → Regex
  | [] => .eps
  | c :: t => .cat (.chr c) (litRe t)

/- ### Theorems -/

/-- The empty regular expression matches nothing. -/
theorem matchFull_emp (s : List Char) : matchFull .emp s = false := by
  induction s with
  | nil => rfl
  | cons a s ih => simpa [matchFull, Regex.deriv] using ih

/-- `eps` matches exactly the empty string. -/
theorem matchFull_eps (s : List Char) : matchFull .eps s = decide (s = []) := by
  cases s with
  | nil => rfl
  | cons a s => simpa [matchFull, Regex.deriv] using matchFull_emp s

/-- Matching an alternation is the disjunction of the matches. -/
theorem matchFull_alt (s : List Char) :
    ∀ r1 r2, matchFull (.alt r1 r2) s = (matchFull r1 s || matchFull r2 s) := by
  induction s with
  | nil => intro r1 r2; rfl
  | cons a s ih =>
      intro r1 r2
      simpa [matchFull, Regex.deriv] using ih (r1.deriv a) (r2.deriv a)

/-- A concatenation starting with the empty language matches nothing. -/
theorem matchFull_cat_emp (s : List Char) (r : Regex) :
    matchFull (.cat .emp r) s = false := by
  induction s with
  | nil => rfl
  | cons a s ih => simpa [matchFull, Regex.deriv, Regex.nullable] using ih

/-- A leading `eps` in a concatenation is neutral. -/
theorem matchFull_cat_eps (s : List Char) :
    ∀ r, matchFull (.cat .eps r) s = matchFull r s := by
  induction s with
  | nil => intro r; simp [matchFull, Regex.nullable]
  | cons a s ih =>
      intro r
      have h1 : matchFull (.cat Regex.eps r) (a :: s) =
          matchFull (.alt (.cat .emp r) (r.deriv a)) s := by
        simp [matchFull, Regex.deriv, Regex.nullable]
      rw [h1, matchFull_alt, matchFull_cat_emp]
      simp [matchFull]

/-- Matching a concatenation that starts with a single character. -/
theorem matchFull_cat_chr (s : List Char) (c : Char) (r : Regex) :
    matchFull (.cat (.chr c) r) s =
      match s with
      | [] => false
      | a :: s' => if a = c then matchFull r s' else false := by
  cases s with
  | nil => rfl
  | cons a s' =>
      by_cases hac : a = c
      · have h1 : matchFull (.cat (Regex.chr c) r) (a :: s') =
            matchFull (.cat .eps r) s' := by
          simp [matchFull, Regex.deriv, Regex.nullable, hac]
        rw [h1, matchFull_cat_eps]
        simp [hac]
      · have h1 : matchFull (.cat (Regex.chr c) r) (a :: s') =
            matchFull (.cat .emp r) s' := by
          simp [matchFull, Regex.deriv, Regex.nullable, hac]
        rw [h1, matchFull_cat_emp]
        simp [hac]

/-- The literal regular expression of `t` matches exactly `t`. -/
theorem matchFull_litRe (t : List Char) :
    ∀ s, matchFull (litRe t) s = decide (s = t) := by
  induction t with
  | nil => intro s; simpa [litRe] using matchFull_eps s
  | cons c t ih =>
      intro s
      rw [litRe, matchFull_cat_chr]
      cases s with
      | nil => simp
      | cons a s' =>
          by_cases hac : a = c
          · simp [hac, ih s']
          · simp [hac]

/-- A plain character is none of the metacharacters. -/
theorem plain_facts (c : Char) (h : isPlainChar c = true) :
    c ≠ '(' ∧ c ≠ ')' ∧ c ≠ '[' ∧ c ≠ ']' ∧ c ≠ '\x7b' ∧ c ≠ '\x7d' ∧
    c ≠ '*' ∧ c ≠ '+' ∧ c ≠ '?' ∧ c ≠ '|' ∧ c ≠ '^' ∧ c ≠ '$' ∧
    c ≠ '.' ∧ c ≠ '\\' := by
  have h' := of_decide_eq_true h
  simp only [metaChars, List.mem_cons, List.not_mem_nil, or_false, not_or] at h'
  exact h'

/-- No postfix operator applies when the remaining input starts with a
plain character (or is empty). -/
theorem parseRepOp_plain (a : Regex) (s : List Char)
    (h : ∀ c ∈ s, isPlainChar c = true) : parseRepOp a s = some (a, s) := by
  cases s with
  | nil => rfl
  | cons d rest =>
      obtain ⟨_, _, _, _, hb, _, hst, hpl, hq, _, _, _, _, _⟩ :=
        plain_facts d (h d (by simp))
      simp [parseRepOp, hst, hpl, hq, hb]

/-- Parsing a string of plain characters yields its literal regular
expression and consumes the whole input. -/
theorem parseSeq_plain (t : List Char) :
    ∀ fuel, t.length < fuel → (∀ c ∈ t, isPlainChar c = true) →
      parseSeq fuel t = some (litRe t, []) := by
  induction t with
  | nil =>
      intro fuel hf _
      match fuel, hf with
      | fuel + 1, _ => rfl
  | cons c rest ih =>
      intro fuel hf hp
      match fuel, hf with
      | fuel + 1, hf =>
        obtain ⟨h1, h2, h3, _, _, _, _, _, _, _, _, _, _, _⟩ :=
          plain_facts c (hp c (by simp))
        have hpc : isPlainChar c = true := hp c (by simp)
        have hrest : ∀ x ∈ rest, isPlainChar x = true :=
          fun x hx => hp x (by simp [hx])
        have hlen : rest.length < fuel := by
          simpa using Nat.lt_of_succ_lt_succ (by simpa using hf)
        have hrec := ih fuel hlen hrest
        simp [parseSeq, h1, h2, h3, hpc, parseRepOp_plain _ _ hrest, hrec, litRe]

/-- Compiling a branch explicitly wrapped in start and end anchors
records both anchoring flags whenever compilation succeeds. -/
theorem compileBranch_anchors (q : List Char) (m : GoRegex)
    (h : compileBranch ('^' :: q ++ ['$']) = some m) :
    m.hasStart = true ∧ m.hasEnd = true := by
  have h1 : stripStart ('^' :: q ++ ['$']) = (true, q ++ ['$']) := by
    simp [stripStart]
  have h2 : stripEnd (q ++ ['$']) = (true, q) := by
    simp [stripEnd, List.getLast?_concat, List.dropLast_concat]
  unfold compileBranch at h
  rw [h1] at h
  dsimp only at h
  rw [h2] at h
  dsimp only at h
  split at h
  · exact absurd h (by simp)
  · split at h
    · cases h
      exact ⟨rfl, rfl⟩
    · exact absurd h (by simp)

/-- Splitting a bar-free pattern keeps the accumulated prefix and the
remainder as the single branch. -/
theorem splitBarsAux_no_bar (l : List Char) :
    ∀ acc, '|' ∉ l → splitBarsAux acc l = [acc.reverse ++ l] := by
  induction l with
  | nil => intro acc _; simp [splitBarsAux]
  | cons c rest ih =>
      intro acc h
      have hc : c ≠ '|' := fun hco => h (by simp [hco])
      have hrest : '|' ∉ rest := fun hco => h (by simp [hco])
      simp [splitBarsAux, hc, ih (c :: acc) hrest]

/-- A bar-free pattern is its own single alternation branch. -/
theorem splitBars_no_bar (l : List Char) (h : '|' ∉ l) : splitBars l = [l] := by
  simpa using splitBarsAux_no_bar l [] h

/-- Splitting never yields an empty branch list. -/
theorem splitBarsAux_length_pos (l : List Char) :
    ∀ acc, 1 ≤ (splitBarsAux acc l).length := by
  induction l with
  | nil => intro acc; simp [splitBarsAux]
  | cons c rest ih =>
      intro acc
      by_cases hc : c = '|'
      · simp [splitBarsAux, hc]
      · simp only [splitBarsAux, if_neg hc]
        exact ih (c :: acc)

/-- A pattern containing a bar splits into at least two branches. -/
theorem splitBarsAux_bar (l : List Char) :
    ∀ acc, '|' ∈ l → 2 ≤ (splitBarsAux acc l).length := by
  induction l with
  | nil => intro acc h; simp at h
  | cons c rest ih =>
      intro acc h
      by_cases hc : c = '|'
      · simp only [splitBarsAux, if_pos hc, List.length_cons]
        have := splitBarsAux_length_pos rest []
        omega
      · have hrest : '|' ∈ rest := by
          rcases List.mem_cons.mp h with h1 | h1
          · exact absurd h1.symm hc
          · exact h1
        simp only [splitBarsAux, if_neg hc]
        exact ih (c :: acc) hrest

/-- Branch-wise compilation preserves the number of branches. -/
theorem compileBranches_length (bs : List (List Char)) :
    ∀ gs, compileBranches bs = some gs → gs.length = bs.length := by
  induction bs with
  | nil =>
      intro gs h
      cases h
      rfl
  | cons b rest ih =>
      intro gs h
      unfold compileBranches at h
      split at h
      · rename_i g gs2 hb hr
        cases h
        simp [ih gs2 hr]
      · exact absurd h (by simp)

/-- Compiling a single branch wraps its compilation in a one-element
list. -/
theorem compileBranches_single (b : List Char) :
    compileBranches [b] = (compileBranch b).map (fun g => [g]) := by
  cases hcb : compileBranch b <;> simp [compileBranches, hcb]

/-- A pattern that compiles to a single branch is bar-free and that
branch is the compilation of the whole pattern. -/
theorem goCompile_singleton (pat : List Char) (m : GoRegex)
    (h : goCompile pat = some [m]) : compileBranch pat = some m := by
  by_cases hbar : '|' ∈ pat
  · exfalso
    have hlen := compileBranches_length (splitBars pat) [m] h
    have := splitBarsAux_bar pat [] hbar
    simp only [List.length_singleton] at hlen
    unfold splitBars at hlen
    omega
  · rw [goCompile, splitBars_no_bar pat hbar, compileBranches_single] at h
    cases hcb : compileBranch pat with
    | none => rw [hcb] at h; exact absurd h (by simp)
    | some g =>
        rw [hcb] at h
        have hg : g = m := by simpa using h
        rw [hg]

/-- Compiling a literal bar-free body wrapped in explicit anchors
succeeds and yields the single fully anchored literal branch. -/
theorem goCompile_plain (t : List Char)
    (hbar : '|' ∉ t)
    (hno : t.any (fun c => c = '^' || c = '$') = false)
    (hparse : parseSeq (t.length + 1) t = some (litRe t, [])) :
    goCompile ('^' :: t ++ ['$']) = some [⟨true, true, litRe t⟩] := by
  have hbar2 : '|' ∉ '^' :: t ++ ['$'] := by
    intro hmem
    rcases List.mem_cons.mp hmem with h1 | h1
    · exact absurd h1 (by decide)
    · rcases List.mem_append.mp h1 with h2 | h2
      · exact hbar h2
      · exact absurd h2 (by decide)
  have hbr : compileBranch ('^' :: t ++ ['$']) = some ⟨true, true, litRe t⟩ := by
    have hanch1 : stripStart ('^' :: t ++ ['$']) = (true, t ++ ['$']) := by
      simp [stripStart]
    have hanch2 : stripEnd (t ++ ['$']) = (true, t) := by
      simp [stripEnd, List.getLast?_concat, List.dropLast_concat]
    unfold compileBranch
    rw [hanch1]
    dsimp only
    rw [hanch2]
    dsimp only
    rw [hno]
    simp [hparse]
  rw [goCompile, splitBars_no_bar _ hbar2, compileBranches_single, hbr]
  rfl

/-- An anchored compiled pattern matches by whole-string acceptance. -/
theorem matchString_anchored (g : GoRegex) (hs : g.hasStart = true)
    (he : g.hasEnd = true) (s : List Char) :
    matchString g s = matchFull g.r s := by
  obtain ⟨b1, b2, r⟩ := g
  cases hs
  cases he
  rfl

/-- Head of a take-prefixed append, when the take keeps at least one
character. -/
theorem head?_sub (a : Char) (p' X : List Char) (f : Nat) (hf : f ≠ 0) :
    ((a :: p').take f ++ X).head? = some a := by
  obtain ⟨k, rfl⟩ := Nat.exists_eq_succ_of_ne_zero hf
  simp [List.take_succ_cons]

/-- One scan step never changes the first character of the template:
a substitution starts at `firstIndex ≠ 0`, so the head is kept. -/
theorem scanStep_head (p : List Char) (v : GoVariable) (i : Nat) (hi : i < p.length) :
    ((scanStep p v i).1).head? = p.head? := by
  obtain ⟨a, p', rfl⟩ : ∃ a p', p = a :: p' := by
    cases p with
    | nil => simp at hi
    | cons a p' => exact ⟨a, p', rfl⟩
  simp only [scanStep]
  split
  · rfl
  · split
    · rename_i h
      repeat' split
      all_goals
        first
          | rfl
          | (rw [List.append_assoc, head?_sub a p' _ _ h.1]; try rfl)
    · rfl

/-- The whole scan never changes the first character of the template. -/
theorem scanAux_head (fuel : Nat) :
    ∀ (st : List Char × GoVariable) (i : Nat),
      ((scanAux fuel st i).1).head? = st.1.head? := by
  induction fuel with
  | zero => intro st i; rfl
  | succ k ih =>
      intro st i
      obtain ⟨p, v⟩ := st
      rw [scanAux]
      split
      · rename_i h
        rw [ih]
        exact scanStep_head p v i h
      · rfl

/-- When a scan boundary is the final character of the template, the
recorded end index is advanced past it, the extracted token therefore
ends with that final character, and a final `'/'` makes the token match
no keyword, so the step leaves the template unchanged. -/
theorem scanStep_final_slash (p : List Char) (v : GoVariable)
    (hne : p ≠ [])
    (hf : v.firstIndex ≠ 0)
    (hflt : v.firstIndex < p.length)
    (hlast : p.getLast? = some '/') :
    scanStep p v (p.length - 1) = (p, ⟨v.firstIndex, p.length⟩) := by
  have hlen : 0 < p.length := List.length_pos.mpr hne
  have hc : p.getD (p.length - 1) (Char.ofNat 0) = '/' := by
    rw [List.getD_eq_getElem?_getD, ← List.getLast?_eq_getElem?, hlast]
    rfl
  have hlendrop : (p.drop v.firstIndex).length = p.length - v.firstIndex :=
    List.length_drop _ _
  have hseg : subSlice p v.firstIndex p.length = p.drop v.firstIndex := by
    unfold subSlice
    rw [← hlendrop, List.take_length]
  have hdropne : p.drop v.firstIndex ≠ [] := by
    intro hcontra
    rw [hcontra] at hlendrop
    simp at hlendrop
    omega
  have hseglast : (p.drop v.firstIndex).getLast? = some '/' := by
    conv at hlast => rw [← List.take_append_drop v.firstIndex p]
    rw [List.getLast?_append_of_ne_nil _ hdropne] at hlast
    exact hlast
  have hlast1 : p.length - 1 + 1 = p.length := Nat.succ_pred_eq_of_pos hlen
  have hn : p.drop v.firstIndex ≠ str ":number" := by
    intro hcontra
    rw [hcontra] at hseglast
    exact absurd hseglast (by decide)
  have hs : p.drop v.firstIndex ≠ str ":string" := by
    intro hcontra
    rw [hcontra] at hseglast
    exact absurd hseglast (by decide)
  simp only [scanStep, eq_self_iff_true, if_true, or_true, and_true, hlast1]
  rw [if_neg (by rw [hc]; decide), if_pos hf, hseg, if_neg hn, if_neg hs]

/-- C1 (counterexample): the claim says the scan state is reset to its
initial unset state when a non-keyword token's end is reached.  On the
template `/:foo/x` every placeholder token (`:foo`, then `:foo/x`)
matches neither keyword, yet after the scan the state still holds the
recorded indices — it was never reset. -/
theorem claim1_counterexample :
    (scanGo (str "/:foo/x")).2 = ⟨1, 7⟩ ∧
      (scanGo (str "/:foo/x")).2 ≠ (⟨0, 0⟩ : GoVariable) := by
  decide

/-- C1 (amended): when a placeholder token matching neither `:number`
nor `:string` reaches its end, the scan state is NOT reset — the
variable start index keeps the recorded colon position and the end
index is set to the boundary position (advanced past a final
character) — while the literal text of the token, including the
trigger colon, is left unmodified in the template and scanning
continues. -/
theorem claim1_amended (p : List Char) (v : GoVariable) (i : Nat)
    (_hi : i < p.length)
    (hc : p.getD i (Char.ofNat 0) ≠ ':')
    (hf : v.firstIndex ≠ 0)
    (hb : p.getD i (Char.ofNat 0) = '/' ∨ i = p.length - 1)
    (hn : subSlice p v.firstIndex (if i = p.length - 1 then i + 1 else i) ≠ str ":number")
    (hs : subSlice p v.firstIndex (if i = p.length - 1 then i + 1 else i) ≠ str ":string") :
    scanStep p v i = (p, ⟨v.firstIndex, if i = p.length - 1 then i + 1 else i⟩) := by
  simp only [scanStep]
  rw [if_neg hc, if_pos ⟨hf, hb⟩, if_neg hn, if_neg hs]

/-- Witness for the amended C1: the non-keyword token `:foo` of the
template `/:foo/x` reaches its end at the separator at index 5; the
step leaves the template unchanged and the state un-reset. -/
theorem claim1_amended_witness :
    scanStep (str "/:foo/x") ⟨1, 0⟩ 5 = (str "/:foo/x", ⟨1, 5⟩) :=
  claim1_amended (str "/:foo/x") ⟨1, 0⟩ 5 (by decide) (by decide) (by decide)
    (by decide) (by decide) (by decide)

/-- C9: a placeholder whose trigger colon is the very first character
of the template is never substituted — the scan preserves the first
character of every template (a substitution requires a nonzero start
index), and in particular `:number` compiles to the literal anchored
pattern, whose `Match` accepts only the exact path `:number` and
rejects the digit string `42`. -/
theorem claim9_head_never_substituted :
    (∀ t : List Char, ((scanGo t).1).head? = t.head?) ∧
      (scanGo (str ":number")).1 = str ":number" ∧
      pwvMatch (str ":number") (str ":number") = some true ∧
      pwvMatch (str ":number") (str "42") = some false := by
  refine ⟨fun t => scanAux_head _ _ _, by decide, by decide, by decide⟩

/-- C10: a keyword terminated by a final `'/'` has its end index
advanced past that character, so the extracted token keeps the
trailing slash and matches no keyword (general step lemma); the
template `/users/:number/` therefore undergoes no substitution,
compiles literally, and its `Match` accepts exactly the path
`/users/:number/`, rejecting `/users/42/`. -/
theorem claim10_trailing_slash :
    (∀ (p : List Char) (v : GoVariable), p ≠ [] → v.firstIndex ≠ 0 →
        v.firstIndex < p.length → p.getLast? = some '/' →
        scanStep p v (p.length - 1) = (p, ⟨v.firstIndex, p.length⟩)) ∧
      (scanGo (str "/users/:number/")).1 = str "/users/:number/" ∧
      pwvMatch (str "/users/:number/") (str "/users/:number/") = some true ∧
      pwvMatch (str "/users/:number/") (str "/users/42/") = some false := by
  refine ⟨fun p v h1 h2 h3 h4 => scanStep_final_slash p v h1 h2 h3 h4,
    by decide, by decide, by decide⟩

/-- Witness for C10: the scan of `/users/:number/` at the final slash
(index 14) extracts `:number/` (end index advanced to 15) and leaves
the template unchanged. -/
theorem claim10_witness :
    scanStep (str "/users/:number/") ⟨7, 0⟩ 14 = (str "/users/:number/", ⟨7, 15⟩) :=
  claim10_trailing_slash.1 (str "/users/:number/") ⟨7, 0⟩ (by decide) (by decide)
    (by decide) (by decide)

/-- C2: the matcher built from `/users/:number` accepts `/users/42`,
rejects `/users/abc` and `/users/42/extra`; the matcher built from
`/users/:string/profile` accepts `/users/alice/profile` and rejects
`/users/42/profile`. -/
theorem claim2_examples :
    pwvMatch (str "/users/:number") (str "/users/42") = some true ∧
      pwvMatch (str "/users/:number") (str "/users/abc") = some false ∧
      pwvMatch (str "/users/:number") (str "/users/42/extra") = some false ∧
      pwvMatch (str "/users/:string/profile") (str "/users/alice/profile") = some true ∧
      pwvMatch (str "/users/:string/profile") (str "/users/42/profile") = some false := by
  refine ⟨by decide, by decide, by decide, by decide, by decide⟩

/-- C3 (counterexample): the template `/a*` contains no placeholder
(the scan leaves it unchanged), the literal path matcher accepts the
request path `/a*`, yet the template matcher rejects it — the two do
not behave identically on exact-path requests. -/
theorem claim3_counterexample :
    (scanGo (str "/a*")).1 = str "/a*" ∧
      (GoMatcher.path (str "/a*")).matchReq ⟨[], str "/a*", []⟩ = true ∧
      pwvMatch (str "/a*") (str "/a*") = some false := by
  refine ⟨by decide, by decide, by decide⟩

/-- C3 (amended): for every template consisting only of plain literal
characters (no regex metacharacters) on which the scan performs no
substitution, the template matcher agrees with the literal path
matcher on every request path, and rejects every strict prefix or
strict suffix of the template. -/
theorem claim3_amended (t : List Char)
    (h1 : ∀ c ∈ t, isPlainChar c = true)
    (h2 : (scanGo t).1 = t) :
    newPathWithVarsMatcher t = some [⟨true, true, litRe t⟩] ∧
      (∀ s, goMatchString [⟨true, true, litRe t⟩] s =
        (GoMatcher.path t).matchReq ⟨[], s, []⟩) ∧
      (∀ s, (s <+: t ∨ s <:+ t) → s ≠ t →
        goMatchString [⟨true, true, litRe t⟩] s = false) := by
  have hbar : '|' ∉ t := by
    intro hmem
    obtain ⟨_, _, _, _, _, _, _, _, _, h10, _, _, _, _⟩ :=
      plain_facts '|' (h1 '|' hmem)
    exact h10 rfl
  have hno : t.any (fun c => c = '^' || c = '$') = false := by
    rw [List.any_eq_false]
    intro c hc
    obtain ⟨_, _, _, _, _, _, _, _, _, _, h11, h12, _, _⟩ :=
      plain_facts c (h1 c hc)
    simp [h11, h12]
  have hparse : parseSeq (t.length + 1) t = some (litRe t, []) :=
    parseSeq_plain t (t.length + 1) (Nat.lt_succ_self _) h1
  have hone : ∀ s, goMatchString [(⟨true, true, litRe t⟩ : GoRegex)] s =
      matchFull (litRe t) s := by
    intro s
    simp [goMatchString, matchString]
  refine ⟨?_, ?_, ?_⟩
  · show goCompile ('^' :: (scanGo t).1 ++ ['$']) = _
    rw [h2]
    exact goCompile_plain t hbar hno hparse
  · intro s
    rw [hone, matchFull_litRe]
    show _ = decide (t = s)
    exact decide_eq_decide.mpr eq_comm
  · intro s _ hne
    rw [hone, matchFull_litRe]
    simp [hne]

/-- Witness for the amended C3: the plain template `/abc` compiles to
its own single literal branch and rejects its strict prefix `/ab`. -/
theorem claim3_amended_witness :
    newPathWithVarsMatcher (str "/abc") = some [⟨true, true, litRe (str "/abc")⟩] ∧
      goMatchString [⟨true, true, litRe (str "/abc")⟩] (str "/ab") = false := by
  have h := claim3_amended (str "/abc") (by decide) (by decide)
  exact ⟨h.1, h.2.2 (str "/ab") (Or.inl ⟨['c'], rfl⟩) (by decide)⟩

/-- C4 (counterexample): the claim says every compiled path pattern
matches only the entire request path, never a proper substring.  The
alternation bar has the lowest precedence, so the pattern text `/a|b`
compiles as the two branches `^/a` and `b$`; its `Match` accepts the
path `/ab` through the proper-prefix match of `/a`, although the
pattern as a whole matches neither `/ab` nor any of its branches does
in full. -/
theorem claim4_counterexample :
    prMatch (str "/a|b") (str "/ab") = some true ∧
      newPathRegexMatcher (str "/a|b") =
        some [⟨true, false, litRe (str "/a")⟩, ⟨false, true, litRe (str "b")⟩] ∧
      matchFull (.alt (litRe (str "/a")) (litRe (str "b"))) (str "/ab") = false ∧
      matchFull (litRe (str "/a")) (str "/ab") = false ∧
      matchFull (litRe (str "b")) (str "/ab") = false := by
  refine ⟨by decide, by decide, by decide, by decide, by decide⟩

/-- C4 (amended): both constructors wrap the pattern in start and end
anchors, but with top-level alternation those anchors attach only to
the first and last alternative, so `Match` may accept a path that the
pattern does not match as a whole.  For every pattern whose compiled
form is a single alternative (no top-level alternation bar), `Match`
is whole-string acceptance of the body, never a substring search; in
particular the pattern text `/a` rejects the path `/ab`. -/
theorem claim4_amended :
    (∀ p m, newPathRegexMatcher p = some [m] →
        m.hasStart = true ∧ m.hasEnd = true ∧
          ∀ s, goMatchString [m] s = matchFull m.r s) ∧
      (∀ t m, newPathWithVarsMatcher t = some [m] →
        m.hasStart = true ∧ m.hasEnd = true ∧
          ∀ s, goMatchString [m] s = matchFull m.r s) ∧
      prMatch (str "/a") (str "/a") = some true ∧
      prMatch (str "/a") (str "/ab") = some false := by
  have hone : ∀ (m : GoRegex) (s : List Char),
      goMatchString [m] s = matchString m s := by
    intro m s
    simp [goMatchString]
  refine ⟨?_, ?_, by decide, by decide⟩
  · intro p m h
    obtain ⟨hs, he⟩ :=
      compileBranch_anchors (removeHash p) m (goCompile_singleton _ m h)
    exact ⟨hs, he, fun s => by rw [hone, matchString_anchored m hs he s]⟩
  · intro t m h
    obtain ⟨hs, he⟩ :=
      compileBranch_anchors ((scanGo t).1) m (goCompile_singleton _ m h)
    exact ⟨hs, he, fun s => by rw [hone, matchString_anchored m hs he s]⟩

/-- Witness for the amended C4: the compiled pattern for `/a` is a
single branch, anchored on both sides, and rejects the longer path
`/ab`. -/
theorem claim4_witness :
    newPathRegexMatcher (str "/a") = some [⟨true, true, litRe (str "/a")⟩] ∧
      goMatchString [(⟨true, true, litRe (str "/a")⟩ : GoRegex)] (str "/ab") = false := by
  have h : newPathRegexMatcher (str "/a") = some [⟨true, true, litRe (str "/a")⟩] := by
    decide
  obtain ⟨_, _, hmatch⟩ := claim4_amended.1 (str "/a") ⟨true, true, litRe (str "/a")⟩ h
  refine ⟨h, ?_⟩
  rw [hmatch]
  decide

/-- C5: `newSchemeMatcher` stores the lower-casing of every supplied
scheme, and `Match` is an exact membership test of the request's scheme
taken verbatim: in general the matcher accepts exactly the requests
whose scheme equals the lower-casing of some supplied scheme; a matcher
built from `HTTP` accepts the scheme value `http` and rejects the
scheme value `HTTPS`. -/
theorem claim5_scheme :
    (∀ ss r, (newSchemeMatcher ss).matchReq r =
        ss.any (fun s => decide (lowerChars s = r.scheme))) ∧
      (newSchemeMatcher [str "HTTP"]).matchReq ⟨str "http", [], []⟩ = true ∧
      (newSchemeMatcher [str "HTTP"]).matchReq ⟨str "HTTPS", [], []⟩ = false := by
  refine ⟨?_, by decide, by decide⟩
  intro ss r
  show decide (r.scheme ∈ ss.map lowerChars) = _
  by_cases hmem : r.scheme ∈ ss.map lowerChars
  · rw [decide_eq_true hmem]
    symm
    rw [List.any_eq_true]
    obtain ⟨x, hx, hxe⟩ := List.mem_map.mp hmem
    exact ⟨x, hx, decide_eq_true hxe⟩
  · rw [decide_eq_false hmem]
    symm
    rw [List.any_eq_false]
    intro x hx
    simp only [decide_eq_true_eq]
    intro hxe
    exact hmem (List.mem_map.mpr ⟨x, hx, hxe⟩)

/-- C6: the three rank constants are ordered `any < path < scheme`;
each variant's `Rank()` is a fixed constant (headers and the custom
function rank `any`, the three path variants rank `path`, the scheme
variant ranks `scheme`); `Matchers.Less(i, j)` holds exactly when the
rank of element `i` is below the rank of element `j`; and sorting a
collection with ranks `scheme, any, path` ascending yields the rank
order `any, path, scheme`. -/
theorem claim6_rank_order :
    (rankAny < rankPath ∧ rankPath < rankScheme) ∧
      (∀ hm, GoMatcher.rank (.header hm) = rankAny) ∧
      (∀ hm, GoMatcher.rank (.headerRegex hm) = rankAny) ∧
      (∀ f, GoMatcher.rank (.mFunc f) = rankAny) ∧
      (∀ p, GoMatcher.rank (.path p) = rankPath) ∧
      (∀ g, GoMatcher.rank (.pathRegex g) = rankPath) ∧
      (∀ g, GoMatcher.rank (.pathWithVars g) = rankPath) ∧
      (∀ ss, GoMatcher.rank (.scheme ss) = rankScheme) ∧
      (∀ (ms : List GoMatcher) (i j : Fin ms.length),
        matchersLess ms i j = true ↔ (ms.get i).rank < (ms.get j).rank) ∧
      (sortByRank [.scheme [], .mFunc (fun r => (true, r)), .path []]).map GoMatcher.rank =
        [rankAny, rankPath, rankScheme] := by
  refine ⟨⟨by decide, by decide⟩, fun _ => rfl, fun _ => rfl, fun _ => rfl,
    fun _ => rfl, fun _ => rfl, fun _ => rfl, fun _ => rfl, ?_, rfl⟩
  intro ms i j
  exact decide_eq_true_iff

/-- C7: `newPathRegexMatcher` removes every `#` from the supplied
pattern (equivalently, keeps exactly the non-`#` characters in order),
wraps the remainder in start and end anchors, compiles once, and
`Match` evaluates the request path against that compiled pattern only;
concretely `#/a#` compiles identically to `/a`. -/
theorem claim7_hash :
    (∀ p, removeHash p = p.filter (fun c => decide (c ≠ '#'))) ∧
      (∀ p, '#' ∉ removeHash p) ∧
      (∀ p, newPathRegexMatcher p = goCompile ('^' :: removeHash p ++ ['$'])) ∧
      (∀ p m, newPathRegexMatcher p = some [m] →
        m.hasStart = true ∧ m.hasEnd = true) ∧
      (∀ gs r, (GoMatcher.pathRegex gs).matchReq r = goMatchString gs r.path) ∧
      newPathRegexMatcher (str "#/a#") = newPathRegexMatcher (str "/a") ∧
      prMatch (str "#/a#") (str "/a") = some true ∧
      prMatch (str "#/a#") (str "/ab") = some false := by
  have hfilter : ∀ p : List Char,
      removeHash p = p.filter (fun c => decide (c ≠ '#')) := by
    intro p
    induction p with
    | nil => rfl
    | cons c cs ih =>
        by_cases hc : c = '#'
        · simp [removeHash, hc, ih]
        · simp [removeHash, hc, ih]
  refine ⟨hfilter, ?_, fun p => rfl, ?_, fun gs r => rfl, by decide, by decide, by decide⟩
  · intro p hmem
    rw [hfilter] at hmem
    have := List.of_mem_filter hmem
    simp at this
  · intro p m h
    exact compileBranch_anchors (removeHash p) m (goCompile_singleton _ m h)

/-- Witness for C7: the pattern `#/a#` compiles to a single branch
carrying both anchors. -/
theorem claim7_witness :
    newPathRegexMatcher (str "#/a#") = some [⟨true, true, litRe (str "/a")⟩] ∧
      (⟨true, true, litRe (str "/a")⟩ : GoRegex).hasStart = true ∧
      (⟨true, true, litRe (str "/a")⟩ : GoRegex).hasEnd = true := by
  have h : newPathRegexMatcher (str "#/a#") = some [⟨true, true, litRe (str "/a")⟩] := by
    decide
  exact ⟨h, claim7_hash.2.2.2.1 (str "#/a#") ⟨true, true, litRe (str "/a")⟩ h⟩

/-- C8 (counterexample): the custom-function matcher hands the request
pointer to an arbitrary wrapped function, so `Match` can mutate the
request: wrapping a function that clears the request path and calling
`Match` leaves the request with an emptied path, different from the
request that was supplied. -/
theorem claim8_counterexample :
    ((GoMatcher.mFunc (fun r => (true, ⟨r.scheme, [], r.headers⟩))).matchReqSt
        ⟨[], ['a'], []⟩).2.2 ≠ (⟨[], ['a'], []⟩ : Request) := by
  decide

/-- C8 (amended): for every matcher variant other than the
custom-function matcher, and for every request, `Match` returns a
boolean (it is total, with no error in its type) and mutates neither
the matcher's stored state nor the request; the custom-function
matcher simply delegates, returning the wrapped function's boolean
and leaving the request however the wrapped function leaves it. -/
theorem claim8_amended :
    (∀ (m : GoMatcher) (r : Request), (∀ f, m ≠ GoMatcher.mFunc f) →
        m.matchReqSt r = (m.matchReq r, m, r)) ∧
      (∀ f r, (GoMatcher.mFunc f).matchReqSt r = ((f r).1, .mFunc f, (f r).2)) := by
  refine ⟨?_, fun _ _ => rfl⟩
  intro m r h
  cases m with
  | mFunc f => exact absurd rfl (h f)
  | header hm => rfl
  | headerRegex hm => rfl
  | scheme s => rfl
  | path p => rfl
  | pathWithVars gs => rfl
  | pathRegex gs => rfl

/-- Witness for the amended C8: a literal path matcher's `Match` call
returns its boolean with the matcher and the request unchanged. -/
theorem claim8_witness :
    (GoMatcher.path ['a']).matchReqSt ⟨[], ['a'], []⟩ =
      ((GoMatcher.path ['a']).matchReq ⟨[], ['a'], []⟩, GoMatcher.path ['a'],
        (⟨[], ['a'], []⟩ : Request)) :=
  claim8_amended.1 (GoMatcher.path ['a']) ⟨[], ['a'], []⟩
    (fun _ h => GoMatcher.noConfusion h)
